import Mathlib

/-!
Verification of the evolutionary-computation engine in `inlined/genetics`.

The Go source is shallowly embedded:
* `Gene` (Go `type Gene = int`) is modelled as `Int`; `Fitness` (Go `int64`)
  as `Int`.
* Go slices become `List`s; a slice read `xs[i]` that Go would bounds-check
  becomes `xs[i]?` inside the `Option` monad (`none` models a runtime panic),
  or `List.getD` where the surrounding theorem carries the bounds.
* The external random source (`github.com/inlined/rand`) is determinized:
  every draw the code makes is a parameter of the embedded function
  (the value `Int63n`/`Int31n` returned, the list `Deal` returned, the
  function `Shuffle` applied, the float `Float64` returned).  Go floats are
  modelled as rationals.
* Go integer division (truncation toward zero) is `Int.tdiv`.
-/

namespace Genetics

/-- Gene is a single trait (Go: `type Gene = int`). -/
abbrev Gene := Int

/-- Fitness is an arbitrary signed score (Go: `type Fitness int64`). -/
abbrev Fitness := Int

/-! ### Generic list swap

Both `maxTieHeap.Swap` and the mutation operators exchange two slots of a
slice: `h[i], h[j] = h[j], h[i]`.  `listSwap` is that operation on lists;
out-of-range indices leave the list unchanged (every use below is in range).
-/

/-- Swap the elements at positions `i` and `j` (Go: `xs[i], xs[j] = xs[j], xs[i]`). -/
def listSwap (xs : List α) (i j : Nat) : List α :=
  match xs[i]?, xs[j]? with
  | some a, some b => (xs.set i b).set j a
  | _, _ => xs

theorem listSwap_length (xs : List α) (i j : Nat) : (listSwap xs i j).length = xs.length := by
  unfold listSwap
  rcases hi : xs[i]? with _ | a <;> rcases hj : xs[j]? with _ | b <;> simp

theorem listSwap_getElem?_ne (xs : List α) (i j m : Nat) (hmi : m ≠ i) (hmj : m ≠ j) :
    (listSwap xs i j)[m]? = xs[m]? := by
  unfold listSwap
  rcases hi : xs[i]? with _ | a <;> rcases hj : xs[j]? with _ | b <;> simp
  rw [List.getElem?_set_ne (by omega), List.getElem?_set_ne (by omega)]

theorem listSwap_getElem?_left (xs : List α) (i j : Nat) (hi : i < xs.length)
    (hj : j < xs.length) (hij : i ≠ j) : (listSwap xs i j)[i]? = xs[j]? := by
  unfold listSwap
  rcases hgi : xs[i]? with _ | a
  · simp [List.getElem?_eq_none_iff] at hgi; omega
  rcases hgj : xs[j]? with _ | b
  · simp [List.getElem?_eq_none_iff] at hgj; omega
  simp only []
  rw [List.getElem?_set_ne (by omega), List.getElem?_set_self (by simpa using hi)]

theorem listSwap_getElem?_right (xs : List α) (i j : Nat) (hi : i < xs.length)
    (hj : j < xs.length) : (listSwap xs i j)[j]? = xs[i]? := by
  unfold listSwap
  rcases hgi : xs[i]? with _ | a
  · simp [List.getElem?_eq_none_iff] at hgi; omega
  rcases hgj : xs[j]? with _ | b
  · simp [List.getElem?_eq_none_iff] at hgj; omega
  simp only []
  rw [List.getElem?_set_self (by simp; omega)]

/-- Key step for `listSwap_perm`: pulling position `m` of `t` to the front
while pushing `a` into its place is a permutation. -/
theorem getD_cons_set_perm (t : List α) (a d : α) :
    ∀ m, m < t.length → (t.getD m d :: t.set m a).Perm (a :: t) := by
  induction t with
  | nil => intro m hm; simp at hm
  | cons b t ih =>
    intro m hm
    cases m with
    | zero => simpa using List.Perm.swap a b t
    | succ k =>
      have hk : k < t.length := by simpa using hm
      have h1 : ((b :: t).getD (k+1) d :: (b :: t).set (k+1) a)
          = t.getD k d :: b :: t.set k a := by simp [List.getD]
      have h2 : (t.getD k d :: b :: t.set k a).Perm (b :: t.getD k d :: t.set k a) :=
        List.Perm.swap b _ _
      have h3 : (b :: t.getD k d :: t.set k a).Perm (b :: a :: t) :=
        List.Perm.cons b (ih k hk)
      have h4 : (b :: a :: t).Perm (a :: b :: t) := List.Perm.swap a b t
      rw [h1]
      exact (h2.trans h3).trans h4

theorem listSwap_perm (xs : List α) (i j : Nat) : (listSwap xs i j).Perm xs := by
  classical
  induction xs generalizing i j with
  | nil => simp [listSwap]
  | cons x t ih =>
    cases i with
    | zero =>
      cases j with
      | zero =>
        unfold listSwap
        simp
      | succ m =>
        unfold listSwap
        rcases hj : (x :: t)[m+1]? with _ | b
        · simp
        have hm : m < t.length := by
          have := List.getElem?_eq_some_iff.mp (by simpa using hj)
          exact this.1
        have hb : t.getD m x = b := by
          have : t[m]? = some b := by simpa using hj
          simp [List.getD, this]
        simp only [List.getElem?_cons_zero, List.set_cons_zero, List.set_cons_succ]
        have := getD_cons_set_perm t x x m hm
        rw [hb] at this
        simpa using this
    | succ k =>
      cases j with
      | zero =>
        unfold listSwap
        rcases hi : (x :: t)[k+1]? with _ | a
        · simp
        have hk : k < t.length := by
          have := List.getElem?_eq_some_iff.mp (by simpa using hi)
          exact this.1
        have ha : t.getD k x = a := by
          have : t[k]? = some a := by simpa using hi
          simp [List.getD, this]
        simp only [List.getElem?_cons_zero, List.set_cons_zero, List.set_cons_succ]
        have := getD_cons_set_perm t x x k hk
        rw [ha] at this
        simpa using this
      | succ m =>
        have step : listSwap (x :: t) (k+1) (m+1) = x :: listSwap t k m := by
          unfold listSwap
          rcases hi : t[k]? with _ | a <;> rcases hj : t[m]? with _ | b <;> simp [hi, hj]
        rw [step]
        exact List.Perm.cons x (ih k m)
/-! ### Species / Chromosome data model and the deprecated string codec

From the embedded core source: `Species{NumGenes, MaxAllele}`,
`Chromosome{Species, Genes}`.  `Chromosome.String` returns the constant
string `"DEPRECATED"` (the base64 encoder is commented out), and
`Species.ParseChromosome` unconditionally returns
`errors.New("DEPRECATED")` (the decoder is commented out).
-/

/-- Species (Go struct: `NumGenes int; MaxAllele Gene`). -/
structure Species where
  NumGenes : Nat
  MaxAllele : Gene

/-- Chromosome: the gene list of one candidate (the `Species` back-pointer is
carried separately where needed). -/
structure Chromosome where
  Genes : List Gene

/-- Go `func (c Chromosome) String() string`: the base64 encoding is
commented out; the function returns the literal `"DEPRECATED"`. -/
def Chromosome.string (_ : Chromosome) : String :=
  "DEPRECATED"

/-- Go `func (s *Species) ParseChromosome(encoded string)`: the whole decoder
body is commented out; the function returns `errors.New("DEPRECATED")`. -/
def Species.parseChromosome (_ : Species) (_ : String) : Except String Chromosome :=
  .error "DEPRECATED"

/-! ### Whole Arithmetic Recombination (heuristic.go)

Go draws `f := r.Float64()` once, then per gene computes
`f1 := f*float64(a.Genes[i]) + (1-f)*float64(b.Genes[i])`,
`x.Genes[i] = Gene(math.Round(f1))`, `d := x.Genes[i] - a.Genes[i]`,
`y.Genes[i] = b.Genes[i] - d`.  The float is modelled as a rational. -/

/-- Go `math.Round`: round half away from zero. -/
def goRound (q : ℚ) : Int :=
  if q < 0 then -(Int.floor (-q + 1/2)) else Int.floor (q + 1/2)

/-- Child X gene: `Gene(math.Round(f*a + (1-f)*b))`. -/
def warX (f : ℚ) (ai bi : Gene) : Gene :=
  goRound (f * (ai : ℚ) + (1 - f) * (bi : ℚ))

/-- Child Y gene: `b - (x - a)` where `x` is the already-rounded child X gene. -/
def warY (f : ℚ) (ai bi : Gene) : Gene :=
  bi - (warX f ai bi - ai)

/-- `WholeArithmeticRecombination.Crossover`: per-position application of
`warX`/`warY` over the two parents. -/
def warCrossover (f : ℚ) (a b : List Gene) : List Gene × List Gene :=
  (List.zipWith (warX f) a b, List.zipWith (warY f) a b)

/-! ### Mutation operators (mutation.go)

The random source is determinized as a stream `g : Nat → Nat` of draw
values; the `t`-th call of `r.Int31n(n)` is modelled as `g t % n`, which
realizes the contract that `Int31n(n)` yields a value in `[0, n)`. -/

/-- `SwapMutation.Mutate`:
`i0 := r.Int31n(len-1); d := r.Int31n(len-i0-1) + 1; swap(i0, i0+d)`. -/
def swapMutate (g : Nat → Nat) (genes : List Gene) : List Gene :=
  let n := genes.length
  let i0 := g 0 % (n - 1)
  let d := g 1 % (n - i0 - 1) + 1
  listSwap genes i0 (i0 + d)

/-- Drawn segment start for Scramble/Inversion: `l := r.Int31n(NumGenes-1)`. -/
def segL (g : Nat → Nat) (n : Nat) : Nat :=
  g 0 % (n - 1)

/-- Drawn segment offset for Scramble/Inversion:
`d := r.Int31n(NumGenes-l-1) + 1`. -/
def segD (g : Nat → Nat) (n : Nat) : Nat :=
  g 1 % (n - segL g n - 1) + 1

/-- The loop of `ScrambleMutation.Mutate`: for `i` in `[l, u)` draw
`d2 := r.Int31n(d+1)` and swap positions `i` and `l+d2`. -/
def scrambleLoop (g : Nat → Nat) (l d : Nat) (genes : List Gene) (i u : Nat) : List Gene :=
  if i < u then
    scrambleLoop g l d (listSwap genes i (l + g (2 + (i - l)) % (d + 1))) (i + 1) u
  else genes
termination_by u - i
decreasing_by omega

/-- `ScrambleMutation.Mutate`. -/
def scrambleMutate (g : Nat → Nat) (genes : List Gene) : List Gene :=
  let n := genes.length
  let l := segL g n
  let d := segD g n
  scrambleLoop g l d genes l (l + d)

/-- The loop of `InversionMutation.Mutate`: `for ; l < u; l, u = l+1, u-1`
swap positions `l` and `u`. -/
def inversionLoop (genes : List Gene) (l u : Nat) : List Gene :=
  if l < u then inversionLoop (listSwap genes l u) (l + 1) (u - 1) else genes
termination_by u - l
decreasing_by omega

/-- `InversionMutation.Mutate`. -/
def inversionMutate (g : Nat → Nat) (genes : List Gene) : List Gene :=
  let n := genes.length
  let l := segL g n
  let d := segD g n
  inversionLoop genes l (l + d)

theorem scrambleLoop_perm (g : Nat → Nat) (l d : Nat) :
    ∀ i u genes, (scrambleLoop g l d genes i u).Perm genes := by
  have key : ∀ (k : Nat) (i u : Nat) (genes : List Gene), u - i ≤ k →
      (scrambleLoop g l d genes i u).Perm genes := by
    intro k
    induction k with
    | zero =>
      intro i u genes h
      rw [scrambleLoop]
      have hiu : ¬ i < u := by omega
      simp [hiu]
    | succ k ih =>
      intro i u genes h
      rw [scrambleLoop]
      by_cases hiu : i < u
      · simp only [hiu, if_true]
        exact (ih _ _ _ (by omega)).trans (listSwap_perm _ _ _)
      · simp [hiu]
  intro i u genes
  exact key (u - i) i u genes le_rfl

theorem inversionLoop_perm : ∀ l u genes, (inversionLoop genes l u).Perm genes := by
  have key : ∀ (k : Nat) (l u : Nat) (genes : List Gene), u - l ≤ k →
      (inversionLoop genes l u).Perm genes := by
    intro k
    induction k with
    | zero =>
      intro l u genes h
      rw [inversionLoop]
      have hlu : ¬ l < u := by omega
      simp [hlu]
    | succ k ih =>
      intro l u genes h
      rw [inversionLoop]
      by_cases hlu : l < u
      · simp only [hlu, if_true]
        exact (ih _ _ _ (by omega)).trans (listSwap_perm _ _ _)
      · simp [hlu]
  intro l u genes
  exact key (u - l) l u genes le_rfl

theorem scrambleLoop_frame (g : Nat → Nat) (l d : Nat) :
    ∀ i u genes j, (j < l ∨ l + d + 1 ≤ j) → l ≤ i → u ≤ l + d + 1 →
      (scrambleLoop g l d genes i u)[j]? = genes[j]? := by
  have key : ∀ (k : Nat) (i u : Nat) (genes : List Gene) (j : Nat), u - i ≤ k →
      (j < l ∨ l + d + 1 ≤ j) → l ≤ i → u ≤ l + d + 1 →
      (scrambleLoop g l d genes i u)[j]? = genes[j]? := by
    intro k
    induction k with
    | zero =>
      intro i u genes j h hj hli hu
      rw [scrambleLoop]
      have hiu : ¬ i < u := by omega
      simp [hiu]
    | succ k ih =>
      intro i u genes j h hj hli hu
      rw [scrambleLoop]
      by_cases hiu : i < u
      · simp only [hiu, if_true]
        rw [ih _ _ _ _ (by omega) hj (by omega) hu]
        refine listSwap_getElem?_ne _ _ _ _ (by omega) ?_
        have hmod : g (2 + (i - l)) % (d + 1) < d + 1 := Nat.mod_lt _ (by omega)
        omega
      · simp [hiu]
  intro i u genes j hj hli hu
  exact key (u - i) i u genes j le_rfl hj hli hu
/-! ### Claim theorems for the codec, recombination and mutation operators -/

/-- Claim C2 (code bug): the chromosome codec does not round-trip.
`Chromosome.String` returns the constant `"DEPRECATED"` and
`Species.ParseChromosome` unconditionally returns an error, so
`ParseChromosome(c.String())` fails for every chromosome — here evaluated at
the species (numGenes 1, maxAllele 255) and the chromosome with genes `[0]`,
contradicting the round-trip demanded by `TestSerialization`. -/
theorem C2_parseChromosome_of_string_always_errs :
    (Species.mk 1 255).parseChromosome ((Chromosome.mk [0]).string) = .error "DEPRECATED" :=
  rfl

/-- Claim C6 (confirmed): Whole Arithmetic Recombination produces mirror-image
children: at every position `i`, child X holds `round(f*a[i] + (1-f)*b[i])`,
child Y holds `b[i] - (x[i] - a[i])`, hence `x[i] - a[i] = -(y[i] - b[i])`
and `x[i] + y[i] = a[i] + b[i]`. -/
theorem C6_war_children_are_mirror_images (f : ℚ) (a b : List Gene) (i : Nat)
    (hi : i < a.length) (hlen : a.length = b.length) :
    ((warCrossover f a b).1)[i]? = some (warX f (a.getD i 0) (b.getD i 0)) ∧
    ((warCrossover f a b).2)[i]? =
      some (b.getD i 0 - ((warCrossover f a b).1.getD i 0 - a.getD i 0)) ∧
    (warCrossover f a b).1.getD i 0 - a.getD i 0 =
      -((warCrossover f a b).2.getD i 0 - b.getD i 0) ∧
    (warCrossover f a b).1.getD i 0 + (warCrossover f a b).2.getD i 0 =
      a.getD i 0 + b.getD i 0 := by
  have hib : i < b.length := hlen ▸ hi
  rcases ha : a[i]? with _ | x
  · simp [List.getElem?_eq_none_iff] at ha; omega
  rcases hb : b[i]? with _ | y
  · simp [List.getElem?_eq_none_iff] at hb; omega
  have hx : ((warCrossover f a b).1)[i]? = some (warX f (a.getD i 0) (b.getD i 0)) := by
    simp [warCrossover, List.getElem?_zipWith, ha, hb, List.getD_eq_getElem?_getD]
  have hy : ((warCrossover f a b).2)[i]? = some (warY f (a.getD i 0) (b.getD i 0)) := by
    simp [warCrossover, List.getElem?_zipWith, ha, hb, List.getD_eq_getElem?_getD]
  have hxD : (warCrossover f a b).1.getD i 0 = warX f (a.getD i 0) (b.getD i 0) := by
    simp [List.getD_eq_getElem?_getD, hx]
  have hyD : (warCrossover f a b).2.getD i 0 = warY f (a.getD i 0) (b.getD i 0) := by
    simp [List.getD_eq_getElem?_getD, hy]
  refine ⟨hx, ?_, ?_, ?_⟩
  · rw [hy, hxD]
    unfold warY
    ring_nf
  · rw [hxD, hyD]
    unfold warY
    ring
  · rw [hxD, hyD]
    unfold warY
    ring

/-- Witness for C6 at `f = 1/2`, parents `[1]` and `[2]`, position 0. -/
theorem C6_witness :
    (0 < ([1] : List Gene).length ∧ ([1] : List Gene).length = ([2] : List Gene).length) ∧
    (((warCrossover (1/2) [1] [2]).1)[0]? =
        some (warX (1/2) (([1] : List Gene).getD 0 0) (([2] : List Gene).getD 0 0)) ∧
      ((warCrossover (1/2) [1] [2]).2)[0]? =
        some (([2] : List Gene).getD 0 0 -
          ((warCrossover (1/2) [1] [2]).1.getD 0 0 - ([1] : List Gene).getD 0 0)) ∧
      (warCrossover (1/2) [1] [2]).1.getD 0 0 - ([1] : List Gene).getD 0 0 =
        -((warCrossover (1/2) [1] [2]).2.getD 0 0 - ([2] : List Gene).getD 0 0) ∧
      (warCrossover (1/2) [1] [2]).1.getD 0 0 + (warCrossover (1/2) [1] [2]).2.getD 0 0 =
        ([1] : List Gene).getD 0 0 + ([2] : List Gene).getD 0 0) :=
  ⟨⟨by decide, by decide⟩,
    C6_war_children_are_mirror_images (1/2) [1] [2] 0 (by decide) (by decide)⟩

/-- Claim C7 (confirmed): scramble mutation only touches the picked segment.
With `l` the drawn start and `d` the drawn offset, the shuffled segment is
`[l, l+d]` inclusive — its length (the spec segment span) is `d + 1` — and
every gene at a position outside `[l, l + (d+1))` is unchanged. -/
theorem C7_scramble_frame (g : Nat → Nat) (genes : List Gene)
    (h2 : 2 ≤ genes.length) (j : Nat)
    (hj : j < segL g genes.length ∨
      segL g genes.length + (segD g genes.length + 1) ≤ j) :
    (scrambleMutate g genes)[j]? = genes[j]? := by
  unfold scrambleMutate
  exact scrambleLoop_frame g _ _ _ _ genes j (by omega) le_rfl (by omega)

/-- Witness for C7: draws all 0 on `[1,2,3]` pick `l = 0`, `d = 1`; position 2
is outside the segment and keeps its gene. -/
theorem C7_witness :
    (2 ≤ ([1,2,3] : List Gene).length ∧
      (2 < segL (fun _ => 0) ([1,2,3] : List Gene).length ∨
        segL (fun _ => 0) ([1,2,3] : List Gene).length +
          (segD (fun _ => 0) ([1,2,3] : List Gene).length + 1) ≤ 2)) ∧
    (scrambleMutate (fun _ => 0) [1,2,3])[2]? = ([1,2,3] : List Gene)[2]? :=
  ⟨⟨by decide, by decide⟩,
    C7_scramble_frame (fun _ => 0) [1,2,3] (by decide) 2 (by decide)⟩

/-- Claim C8 (confirmed): swap, scramble and inversion mutation each produce a
permutation of the input gene sequence, so the multiset of gene values is
unchanged. -/
theorem C8_mutations_permute (g : Nat → Nat) (genes : List Gene)
    (h2 : 2 ≤ genes.length) :
    (swapMutate g genes).Perm genes ∧ (scrambleMutate g genes).Perm genes ∧
      (inversionMutate g genes).Perm genes := by
  refine ⟨?_, ?_, ?_⟩
  · unfold swapMutate
    exact listSwap_perm _ _ _
  · unfold scrambleMutate
    exact scrambleLoop_perm _ _ _ _ _ _
  · unfold inversionMutate
    exact inversionLoop_perm _ _ _

/-- Witness for C8 on the two-gene chromosome `[5, 7]` with all-zero draws. -/
theorem C8_witness :
    (2 ≤ ([5, 7] : List Gene).length) ∧
    ((swapMutate (fun _ => 0) [5, 7]).Perm [5, 7] ∧
      (scrambleMutate (fun _ => 0) [5, 7]).Perm [5, 7] ∧
      (inversionMutate (fun _ => 0) [5, 7]).Perm [5, 7]) :=
  ⟨by decide, C8_mutations_permute (fun _ => 0) [5, 7] (by decide)⟩
/-! ### Stochastic Universal Sampling (parent_selection.go)

`SelectParents` sums the fitness wheel, divides by `numParents` with Go
integer division (`Int.tdiv`), draws `pos := rand.Int63n(distance)` (panics
unless `distance > 0`; the drawn value is the oracle parameter `draw`), and
then walks the wheel:

    for n := 0; len(indexes) < numParents; n++ {
      accumFitness += fitness[n]
      for ; pos < accumFitness; pos += distance { indexes = append(indexes, n) }
    }

A read `fitness[n]` past the end of the slice (and the `Int63n` panic on a
non-positive distance, and the division-by-zero panic on `numParents = 0`)
are modelled as `none`. -/

/-- Inner wheel loop: count the pointers `pos, pos+dist, …` that land below
`accum`, returning the count and the final pointer.  The loop is given the
structural fuel `(accum - pos).toNat`, an upper bound on its iteration count
whenever `0 < dist` (proved exact by `susInner_spec`). -/
def susInner (dist accum : Int) : Nat → Int → Nat × Int
  | 0, pos => (0, pos)
  | fuel + 1, pos =>
    if pos < accum then
      let r := susInner dist accum fuel (pos + dist)
      (r.1 + 1, r.2)
    else (0, pos)

/-- Outer wheel loop over the fitness slice. `n` is the current index,
`acc` the selected indexes so far. -/
def susOuter (dist : Int) (numParents : Nat) :
    List Fitness → Nat → Int → Int → List Nat → Option (List Nat)
  | rest, n, accum, pos, acc =>
    if numParents ≤ acc.length then some acc
    else
      match rest with
      | [] => none
      | f :: rest2 =>
        let accum2 := accum + f
        let r := susInner dist accum2 (accum2 - pos).toNat pos
        susOuter dist numParents rest2 (n + 1) accum2 r.2 (acc ++ List.replicate r.1 n)

/-- Go accumulation loop `for _, f := range fitness { totalFitness += f }`. -/
def sumFit (fitness : List Fitness) : Fitness :=
  fitness.foldl (· + ·) 0

theorem foldl_add_shift (l : List Fitness) : ∀ a : Fitness, l.foldl (· + ·) a = a + sumFit l := by
  induction l with
  | nil => intro a; simp [sumFit]
  | cons x t ih =>
    intro a
    have h1 : (x :: t).foldl (· + ·) a = t.foldl (· + ·) (a + x) := rfl
    have h2 : sumFit (x :: t) = t.foldl (· + ·) (0 + x) := rfl
    rw [h1, h2, ih (a + x), ih (0 + x)]
    ring

theorem sumFit_cons (f : Fitness) (l : List Fitness) : sumFit (f :: l) = f + sumFit l := by
  have := foldl_add_shift l (0 + f)
  simpa [sumFit] using this

theorem sumFit_nonneg (l : List Fitness) (h : ∀ x ∈ l, 0 ≤ x) : 0 ≤ sumFit l := by
  induction l with
  | nil => simp [sumFit]
  | cons x t ih =>
    rw [sumFit_cons]
    have hx := h x (List.mem_cons_self x t)
    have ht := ih (fun y hy => h y (List.mem_cons_of_mem x hy))
    exact add_nonneg hx ht

/-- `StochasticUniversalSampling.SelectParents`, determinized by the drawn
wheel offset `draw` (the value `rand.Int63n(distance)` returned). -/
def susSelectParents (draw : Int) (numParents : Nat) (fitness : List Fitness) :
    Option (List Nat) :=
  let total := sumFit fitness
  if numParents = 0 then none
  else
    let dist := Int.tdiv total (numParents : Int)
    if 0 < dist then susOuter dist numParents fitness 0 0 draw []
    else none

/-- With positive wheel distance and sufficient fuel, the inner loop returns a
final pointer `pos + count·dist` that has reached `accum`. -/
theorem susInner_spec (dist accum : Int) (hd : 0 < dist) :
    ∀ fuel pos, (accum - pos).toNat ≤ fuel →
      (susInner dist accum fuel pos).2 =
        pos + ((susInner dist accum fuel pos).1 : Int) * dist ∧
      accum ≤ (susInner dist accum fuel pos).2 := by
  intro fuel
  induction fuel with
  | zero =>
    intro pos hfu
    have : accum ≤ pos := by omega
    simp [susInner, this]
  | succ fuel ih =>
    intro pos hfu
    by_cases hpa : pos < accum
    · have hrec := ih (pos + dist) (by omega)
      simp only [susInner, hpa, if_true]
      refine ⟨?_, hrec.2⟩
      rw [hrec.1]
      push_cast
      ring
    · simp [susInner, hpa]
      omega

/-- Main invariant proof for the SUS wheel walk: with positive distance, an
in-range draw, nonnegative remaining fitness, and enough wheel left
(`numParents·dist ≤ accum + sum rest`), the outer loop succeeds and selects
at least `numParents` indexes, all below the end of the slice. -/
theorem susOuter_spec (dist : Int) (hd : 0 < dist) (np : Nat) (draw : Int)
    (hdraw : 0 ≤ draw) (hdraw2 : draw < dist) :
    ∀ (rest : List Fitness) (n : Nat) (accum pos : Int) (acc : List Nat),
      (∀ x ∈ rest, 0 ≤ x) →
      pos = draw + (acc.length : Int) * dist →
      accum ≤ pos →
      (∀ i ∈ acc, i < n) →
      (np : Int) * dist ≤ accum + sumFit rest →
      ∃ res, susOuter dist np rest n accum pos acc = some res ∧
        np ≤ res.length ∧ ∀ i ∈ res, i < n + rest.length := by
  intro rest
  induction rest with
  | nil =>
    intro n accum pos acc hrest hpos hpa hacc htotal
    by_cases hg : np ≤ acc.length
    · refine ⟨acc, ?_, hg, fun i hi => ?_⟩
      · rw [susOuter]
        simp [hg]
      · simpa using hacc i hi
    · exfalso
      have hlen : (acc.length : Int) ≤ (np : Int) - 1 := by
        have : acc.length + 1 ≤ np := by omega
        push_cast at this ⊢
        omega
      have h1 : pos ≤ draw + ((np : Int) - 1) * dist := by
        rw [hpos]
        have := mul_le_mul_of_nonneg_right hlen (le_of_lt hd)
        omega
      have h2 : draw + ((np : Int) - 1) * dist < (np : Int) * dist := by
        have : ((np : Int) - 1) * dist + dist = (np : Int) * dist := by ring
        omega
      simp [sumFit] at htotal
      omega
  | cons f rest2 ih =>
    intro n accum pos acc hrest hpos hpa hacc htotal
    by_cases hg : np ≤ acc.length
    · refine ⟨acc, ?_, hg, fun i hi => ?_⟩
      · rw [susOuter]
        simp [hg]
      · have := hacc i hi
        simp
        omega
    · rw [susOuter]
      simp only [hg, if_false]
      have hf : 0 ≤ f := hrest f (List.mem_cons_self f rest2)
      have hrest2 : ∀ x ∈ rest2, 0 ≤ x := fun x hx => hrest x (List.mem_cons_of_mem f hx)
      obtain ⟨hstep, hreach⟩ :=
        susInner_spec dist (accum + f) hd ((accum + f - pos).toNat) pos le_rfl
      have hsum : sumFit (f :: rest2) = f + sumFit rest2 := sumFit_cons f rest2
      obtain ⟨res, hres, hlen, hmem⟩ :=
        ih (n + 1) (accum + f) (susInner dist (accum + f) ((accum + f - pos).toNat) pos).2
          (acc ++ List.replicate (susInner dist (accum + f) ((accum + f - pos).toNat) pos).1 n)
          hrest2
          (by
            rw [hstep, hpos]
            simp only [List.length_append, List.length_replicate]
            push_cast
            ring)
          hreach
          (by
            intro i hi
            rcases List.mem_append.mp hi with hi | hi
            · exact Nat.lt_succ_of_lt (hacc i hi)
            · have := List.eq_of_mem_replicate hi
              omega)
          (by rw [hsum] at htotal; omega)
      refine ⟨res, hres, hlen, fun i hi => ?_⟩
      have := hmem i hi
      simp at this ⊢
      omega

/-- Claim C4 (confirmed): SUS is deterministic given the random source.  With
fitness `[2,2,2,2,2,2]` and `numParents = 3`, a first draw of `1` selects
exactly `[0,2,4]` and a first draw of `3` selects exactly `[1,3,5]`. -/
theorem C4_sus_deterministic :
    susSelectParents 1 3 [2,2,2,2,2,2] = some [0,2,4] ∧
    susSelectParents 3 3 [2,2,2,2,2,2] = some [1,3,5] := by
  decide

/-- Counterexample to claim C10 as stated: fitness `[7]` has only nonnegative
entries and wheel distance `7 tdiv 3 = 2 ≥ 1`, yet with draw `0` (a legal
`Int63n(2)` outcome) `SelectParents` returns FOUR indexes, not exactly
`numParents = 3`: the last fitness span covers several wheel pointers and the
inner loop appends them all before the outer guard is rechecked. -/
theorem C10_counterexample_more_than_numParents :
    (∀ x ∈ ([7] : List Fitness), 0 ≤ x) ∧
    1 ≤ Int.tdiv (sumFit [7]) 3 ∧
    susSelectParents 0 3 [7] = some [0, 0, 0, 0] ∧
    ([0, 0, 0, 0] : List Nat).length ≠ 3 := by
  refine ⟨by decide, by decide, by decide, by decide⟩

/-- Claim C10 as amended: on a positive wheel (all entries `≥ 0`,
`sum tdiv numParents ≥ 1`, `numParents ≥ 1`, and an in-range draw) the scan
terminates without reading past the fitness slice and returns AT LEAST
`numParents` indexes (possibly more, see the counterexample), each in
`[0, len fitness)`; and whenever `sum fitness < numParents` the computation
faults at the `Int63n(distance)` draw (distance is not positive). -/
theorem C10_sus_totality_amended :
    (∀ (draw : Int) (np : Nat) (fitness : List Fitness),
      1 ≤ np → (∀ x ∈ fitness, 0 ≤ x) →
      1 ≤ Int.tdiv (sumFit fitness) np →
      0 ≤ draw → draw < Int.tdiv (sumFit fitness) np →
      ∃ res, susSelectParents draw np fitness = some res ∧
        np ≤ res.length ∧ ∀ i ∈ res, i < fitness.length) ∧
    (∀ (draw : Int) (np : Nat) (fitness : List Fitness),
      1 ≤ np → sumFit fitness < (np : Int) →
      susSelectParents draw np fitness = none) := by
  constructor
  · intro draw np fitness hnp hposf hdist hdraw hdraw2
    have hsumnn : 0 ≤ sumFit fitness := sumFit_nonneg fitness hposf
    have hd : 0 < Int.tdiv (sumFit fitness) (np : Int) := by omega
    have htotal :
        (np : Int) * Int.tdiv (sumFit fitness) (np : Int) ≤ 0 + sumFit fitness := by
      have h1 : Int.tdiv (sumFit fitness) (np : Int) * (np : Int) ≤ sumFit fitness := by
        rw [Int.tdiv_eq_ediv hsumnn (by positivity)]
        exact Int.ediv_mul_le _ (by positivity)
      calc (np : Int) * Int.tdiv (sumFit fitness) (np : Int)
          = Int.tdiv (sumFit fitness) (np : Int) * (np : Int) := by ring
        _ ≤ sumFit fitness := h1
        _ = 0 + sumFit fitness := by ring
    obtain ⟨res, hres, hlen, hmem⟩ :=
      susOuter_spec (Int.tdiv (sumFit fitness) (np : Int)) hd np draw hdraw hdraw2
        fitness 0 0 draw [] hposf (by simp) hdraw (by simp) htotal
    refine ⟨res, ?_, hlen, fun i hi => by simpa using hmem i hi⟩
    have hnp0 : np ≠ 0 := by omega
    simp only [susSelectParents, hnp0, if_false, if_pos hd]
    exact hres
  · intro draw np fitness hnp hlt
    have hnp0 : np ≠ 0 := by omega
    have hd : ¬ (0 < Int.tdiv (sumFit fitness) (np : Int)) := by
      by_cases hneg : sumFit fitness < 0
      · have h4 : 0 ≤ Int.tdiv (-(sumFit fitness)) (np : Int) :=
          Int.tdiv_nonneg (Int.neg_nonneg.mpr (le_of_lt hneg)) (by positivity)
        rw [Int.neg_tdiv] at h4
        omega
      · have h5 : Int.tdiv (sumFit fitness) (np : Int) = 0 :=
          Int.tdiv_eq_zero_of_lt (le_of_not_lt hneg) hlt
        omega
    simp [susSelectParents, hnp0, hd]

/-- Witness for the amended C10 at draw `1`, `numParents = 3`, fitness
`[2,2,2,2,2,2]`. -/
theorem C10_witness :
    ∃ res, susSelectParents 1 3 [2,2,2,2,2,2] = some res ∧
      3 ≤ res.length ∧ ∀ i ∈ res, i < ([2,2,2,2,2,2] : List Fitness).length :=
  C10_sus_totality_amended.1 1 3 [2,2,2,2,2,2] (by decide) (by decide) (by decide)
    (by decide) (by decide)

/-! ### Tournament Selection (parent_selection.go)

`selectOneParent` deals `Size` distinct candidate indices
(`indexes := rand.Deal(r, len(fitness), s.Size)` — determinized as the
oracle list `d`, whose length is the tournament size), seeds the maximum
with candidate 0, then scans candidates 1..Size-1 replacing the maximum on
`fitness[indexes[n]] >= maxFitness`.  `SelectParents` repeats this
independently for each of the `numParents` parents. -/

/-- Scan loop of `selectOneParent` over the remaining dealt candidates. -/
def tourLoop (fitness : List Fitness) : List Nat → Nat → Fitness → Option Nat
  | [], maxI, _ => some maxI
  | i :: rest, maxI, maxF =>
    match fitness[i]? with
    | none => none
    | some fi =>
      if maxF ≤ fi then tourLoop fitness rest i fi else tourLoop fitness rest maxI maxF

/-- `TournamentSelection.selectOneParent` with the dealt candidate list `d`. -/
def selectOneParent (fitness : List Fitness) (d : List Nat) : Option Nat :=
  match d with
  | [] => none
  | i0 :: rest =>
    match fitness[i0]? with
    | none => none
    | some f0 => tourLoop fitness rest i0 f0

/-- `TournamentSelection.SelectParents`: one independent tournament per
parent; `deals` holds the oracle deal for each of the `numParents` parents. -/
def tournamentSelectParents (fitness : List Fitness) : List (List Nat) → Option (List Nat)
  | [] => some []
  | d :: rest => do
    let r ← selectOneParent fitness d
    let rs ← tournamentSelectParents fitness rest
    pure (r :: rs)

/-- The winner of one tournament: the candidate at some position `j` of the
deal whose fitness is maximal, every later-dealt candidate being strictly
worse (the scan replaces the maximum on `>=`, so ties go to the later-drawn
candidate). -/
def IsLastMax (fitness : List Fitness) (d : List Nat) (r : Nat) : Prop :=
  ∃ j, j < d.length ∧ r = d.getD j 0 ∧
    (∀ t, t < d.length → fitness.getD (d.getD t 0) 0 ≤ fitness.getD r 0) ∧
    (∀ t, j < t → t < d.length → fitness.getD (d.getD t 0) 0 < fitness.getD r 0)

theorem tourLoop_spec (fitness : List Fitness) :
    ∀ (rest : List Nat) (maxI : Nat), (∀ i ∈ rest, i < fitness.length) →
      maxI < fitness.length →
      ∃ r, tourLoop fitness rest maxI (fitness.getD maxI 0) = some r ∧
        r < fitness.length ∧ IsLastMax fitness (maxI :: rest) r := by
  intro rest
  induction rest with
  | nil =>
    intro maxI hrest hmax
    refine ⟨maxI, rfl, hmax, 0, by simp, by simp, ?_, ?_⟩
    · intro t ht
      simp only [List.length_cons, List.length_nil] at ht
      have ht0 : t = 0 := by omega
      subst ht0
      simp only [List.getD_cons_zero]
      exact le_refl _
    · intro t h0 ht
      simp only [List.length_cons, List.length_nil] at ht
      omega
  | cons i rest2 ih =>
    intro maxI hrest hmax
    have hi : i < fitness.length := hrest i (List.mem_cons_self i rest2)
    have hrest2 : ∀ x ∈ rest2, x < fitness.length :=
      fun x hx => hrest x (List.mem_cons_of_mem i hx)
    rcases hfi : fitness[i]? with _ | fi
    · simp [List.getElem?_eq_none_iff] at hfi; omega
    have hfiD : fitness.getD i 0 = fi := by simp [List.getD_eq_getElem?_getD, hfi]
    by_cases hge : fitness.getD maxI 0 ≤ fi
    · obtain ⟨r, hr, hrlen, j, hj, hrj, hle, hlt⟩ := ih i hrest2 hi
      refine ⟨r, ?_, hrlen, j + 1, by simpa using hj,
        by simpa only [List.getD_cons_succ] using hrj, ?_, ?_⟩
      · show tourLoop fitness (i :: rest2) maxI (fitness.getD maxI 0) = some r
        rw [tourLoop]
        simp only [hfi]
        rw [if_pos hge, ← hfiD]
        exact hr
      · intro t ht
        cases t with
        | zero =>
          have h0 := hle 0 (by simp)
          simp only [List.getD_cons_zero] at h0 ⊢
          rw [hfiD] at h0
          exact le_trans hge h0
        | succ s =>
          have := hle s (by simpa using ht)
          simpa only [List.getD_cons_succ] using this
      · intro t htj ht
        cases t with
        | zero => omega
        | succ s =>
          have := hlt s (by omega) (by simpa using ht)
          simpa only [List.getD_cons_succ] using this
    · obtain ⟨r, hr, hrlen, j, hj, hrj, hle, hlt⟩ := ih maxI hrest2 hmax
      have hstep : tourLoop fitness (i :: rest2) maxI (fitness.getD maxI 0) = some r := by
        rw [tourLoop]
        simp only [hfi]
        rw [if_neg hge]
        exact hr
      have hmaxr : fitness.getD maxI 0 ≤ fitness.getD r 0 := by
        have := hle 0 (by simp)
        simpa only [List.getD_cons_zero] using this
      have hir : fitness.getD i 0 < fitness.getD r 0 := by
        rw [hfiD]
        exact lt_of_lt_of_le (not_le.mp hge) hmaxr
      cases j with
      | zero =>
        have hrmax : r = maxI := by simpa only [List.getD_cons_zero] using hrj
        refine ⟨r, hstep, hrlen, 0, by simp, by simp [hrmax], ?_, ?_⟩
        · intro t ht
          cases t with
          | zero =>
            simpa only [List.getD_cons_zero] using hmaxr
          | succ s =>
            cases s with
            | zero =>
              simpa only [List.getD_cons_succ, List.getD_cons_zero] using le_of_lt hir
            | succ u =>
              have := hle (u + 1) (by simpa using ht)
              simpa only [List.getD_cons_succ] using this
        · intro t htj ht
          cases t with
          | zero => omega
          | succ s =>
            cases s with
            | zero =>
              simpa only [List.getD_cons_succ, List.getD_cons_zero] using hir
            | succ u =>
              have := hlt (u + 1) (by omega) (by simpa using ht)
              simpa only [List.getD_cons_succ] using this
      | succ j2 =>
        refine ⟨r, hstep, hrlen, j2 + 2, by simpa using hj,
          by simpa only [List.getD_cons_succ] using hrj, ?_, ?_⟩
        · intro t ht
          cases t with
          | zero =>
            simpa only [List.getD_cons_zero] using hmaxr
          | succ s =>
            cases s with
            | zero =>
              simpa only [List.getD_cons_succ, List.getD_cons_zero] using le_of_lt hir
            | succ u =>
              have := hle (u + 1) (by simpa using ht)
              simpa only [List.getD_cons_succ] using this
        · intro t htj ht
          cases t with
          | zero => omega
          | succ s =>
            cases s with
            | zero => omega
            | succ u =>
              have := hlt (u + 1) (by omega) (by simpa using ht)
              simpa only [List.getD_cons_succ] using this

theorem selectOneParent_spec (fitness : List Fitness) (d : List Nat)
    (hne : d ≠ []) (hbound : ∀ i ∈ d, i < fitness.length) :
    ∃ r, selectOneParent fitness d = some r ∧ r < fitness.length ∧
      IsLastMax fitness d r := by
  match d with
  | [] => exact absurd rfl hne
  | i0 :: rest =>
    have hi0 : i0 < fitness.length := hbound i0 (List.mem_cons_self i0 rest)
    have hrest : ∀ i ∈ rest, i < fitness.length :=
      fun i hi => hbound i (List.mem_cons_of_mem i0 hi)
    obtain ⟨r, hr, hrlen, hmax⟩ := tourLoop_spec fitness rest i0 hrest hi0
    refine ⟨r, ?_, hrlen, hmax⟩
    rcases hfi : fitness[i0]? with _ | f0
    · simp [List.getElem?_eq_none_iff] at hfi; omega
    have hfiD : fitness.getD i0 0 = f0 := by simp [List.getD_eq_getElem?_getD, hfi]
    show selectOneParent fitness (i0 :: rest) = some r
    rw [selectOneParent]
    simp only [hfi]
    rw [← hfiD]
    exact hr

/-- Claim C5 (confirmed): for every fitness vector and dealt-candidate oracle,
`TournamentSelection.SelectParents` runs one independent tournament per
parent: the `m`-th returned parent is, among the `m`-th deal, the candidate
of greatest fitness with ties broken in favor of the later-drawn candidate
(left-to-right scan replacing on `>=`). -/
theorem C5_tournament_selects_last_max (fitness : List Fitness)
    (deals : List (List Nat))
    (hne : ∀ d ∈ deals, d ≠ [])
    (hbound : ∀ d ∈ deals, ∀ i ∈ d, i < fitness.length) :
    ∃ res, tournamentSelectParents fitness deals = some res ∧
      res.length = deals.length ∧
      ∀ m, m < deals.length →
        res.getD m 0 < fitness.length ∧
        IsLastMax fitness (deals.getD m []) (res.getD m 0) := by
  induction deals with
  | nil => exact ⟨[], rfl, rfl, fun m hm => absurd hm (by simp)⟩
  | cons d deals2 ih =>
    obtain ⟨r, hr, hrlen, hmax⟩ :=
      selectOneParent_spec fitness d (hne d (List.mem_cons_self d deals2))
        (hbound d (List.mem_cons_self d deals2))
    obtain ⟨res2, hres2, hlen2, hspec2⟩ :=
      ih (fun x hx => hne x (List.mem_cons_of_mem d hx))
        (fun x hx => hbound x (List.mem_cons_of_mem d hx))
    refine ⟨r :: res2, ?_, by simpa using hlen2, ?_⟩
    · rw [tournamentSelectParents]
      simp [hr, hres2]
    · intro m hm
      cases m with
      | zero => simpa using ⟨hrlen, hmax⟩
      | succ s =>
        have := hspec2 s (by simpa using hm)
        simpa using this

/-- Witness for C5: fitness `[4, 20, 16, 3]`, two deals `[3, 2]` and `[1, 2]`
(the `TestParentSelection` "Tournament of 2" case). -/
theorem C5_witness :
    ∃ res, tournamentSelectParents [4, 20, 16, 3] [[3, 2], [1, 2]] = some res ∧
      res.length = ([[3, 2], [1, 2]] : List (List Nat)).length ∧
      ∀ m, m < ([[3, 2], [1, 2]] : List (List Nat)).length →
        res.getD m 0 < ([4, 20, 16, 3] : List Fitness).length ∧
        IsLastMax [4, 20, 16, 3] (([[3, 2], [1, 2]] : List (List Nat)).getD m [])
          (res.getD m 0) :=
  C5_tournament_selects_last_max [4, 20, 16, 3] [[3, 2], [1, 2]]
    (by intro d hd; fin_cases hd <;> simp)
    (by intro d hd; fin_cases hd <;> (intro i hi; fin_cases hi <;> simp))

/-! ### Davis Order Crossover / OX1 (heuristic.go)

`Crossover` deals two distinct cut points from `[0, len(b.Genes)+1)`
(oracle parameters `d0`, `d1`), orders them, and builds each child with
`davisCrossoverOne(p1, p2, lower, upper)`:

    child := s.New(); seen := make([]bool, s.NumGenes)
    for i := lower; i < upper; i++ { seen[p1.Genes[i]] = true; child.Genes[i] = p1.Genes[i] }
    insert := upper % s.NumGenes
    for read := 0; read < s.NumGenes; read++ {
      if seen[p2.Genes[read]] { continue }
      child.Genes[insert] = p2.Genes[read]; insert = (insert + 1) % s.NumGenes }

The `seen` lookups are indexed by gene VALUES, so a gene outside
`[0, NumGenes)` makes Go panic; every such read is `Option`-guarded here
(`none` = panic).  The loops run `upper-lower` and `NumGenes` times; that
count is the structural recursion fuel. -/

/-- First OX1 loop: copy `p1`'s `[lower, upper)` segment, marking seen genes.
`k` is the number of remaining iterations (`upper - i`). -/
def dcoPhase1 (p1 : List Gene) : Nat → Nat → List Bool → List Gene →
    Option (List Bool × List Gene)
  | 0, _, seen, child => some (seen, child)
  | k + 1, i, seen, child =>
    match p1[i]? with
    | none => none
    | some g =>
      if 0 ≤ g ∧ g.toNat < seen.length then
        dcoPhase1 p1 k (i + 1) (seen.set g.toNat true) (child.set i g)
      else none

/-- Second OX1 loop: scan `p2` from the start, skipping seen genes and filling
the child from `insert` onward, wrapping modulo `n`.  `k` is the number of
remaining iterations (`n - read`). -/
def dcoPhase2 (p2 : List Gene) (seen : List Bool) (n : Nat) :
    Nat → Nat → Nat → List Gene → Option (List Gene)
  | 0, _, _, child => some child
  | k + 1, read, insert, child =>
    match p2[read]? with
    | none => none
    | some g =>
      if g < 0 then none
      else
        match seen[g.toNat]? with
        | none => none
        | some true => dcoPhase2 p2 seen n k (read + 1) insert child
        | some false => dcoPhase2 p2 seen n k (read + 1) ((insert + 1) % n) (child.set insert g)

/-- Go `davisCrossoverOne(p1, p2, lower, upper)`.  A zero-length genome would
make `upper % s.NumGenes` divide by zero, hence the explicit guard. -/
def davisCrossoverOne (p1 p2 : List Gene) (lower upper : Nat) : Option (List Gene) :=
  let n := p1.length
  if n = 0 then none
  else
    match dcoPhase1 p1 (upper - lower) lower (List.replicate n false) (List.replicate n 0) with
    | none => none
    | some (seen, child) => dcoPhase2 p2 seen n n 0 (upper % n) child

/-- `DavisOrderCrossover.Crossover` with the two dealt cut points `d0`, `d1`. -/
def davisCrossover (d0 d1 : Nat) (a b : List Gene) : Option (List Gene × List Gene) :=
  let lower := if d0 > d1 then d1 else d0
  let upper := if d0 > d1 then d0 else d1
  match davisCrossoverOne a b lower upper, davisCrossoverOne b a lower upper with
  | some x, some y => some (x, y)
  | _, _ => none

theorem dcoPhase1_total (p1 : List Gene)
    (hp1 : ∀ g ∈ p1, 0 ≤ g ∧ g.toNat < p1.length) :
    ∀ (k i : Nat) (seen : List Bool) (child : List Gene),
      i + k ≤ p1.length → seen.length = p1.length →
      ∃ seen2 child2, dcoPhase1 p1 k i seen child = some (seen2, child2) ∧
        seen2.length = seen.length := by
  intro k
  induction k with
  | zero => exact fun i seen child _ _ => ⟨seen, child, rfl, rfl⟩
  | succ k ih =>
    intro i seen child hik hsl
    rcases hgi : p1[i]? with _ | g
    · simp [List.getElem?_eq_none_iff] at hgi
      omega
    have hmem : g ∈ p1 := List.getElem?_mem hgi
    have hg := hp1 g hmem
    have hcond : 0 ≤ g ∧ g.toNat < seen.length := ⟨hg.1, by omega⟩
    obtain ⟨seen2, child2, hrec, hlen⟩ :=
      ih (i + 1) (seen.set g.toNat true) (child.set i g) (by omega) (by simp [hsl])
    refine ⟨seen2, child2, ?_, by simpa using hlen⟩
    rw [dcoPhase1]
    simp only [hgi]
    rw [if_pos hcond]
    exact hrec

theorem dcoPhase2_total (p2 : List Gene) (seen : List Bool) (n : Nat)
    (hp2 : ∀ g ∈ p2, 0 ≤ g ∧ g.toNat < n) (hsl : seen.length = n) :
    ∀ (k read insert : Nat) (child : List Gene), read + k ≤ p2.length →
      ∃ child2, dcoPhase2 p2 seen n k read insert child = some child2 := by
  intro k
  induction k with
  | zero => exact fun read insert child _ => ⟨child, rfl⟩
  | succ k ih =>
    intro read insert child hrk
    rcases hgr : p2[read]? with _ | g
    · simp [List.getElem?_eq_none_iff] at hgr
      omega
    have hg := hp2 g (List.getElem?_mem hgr)
    have hgneg : ¬ (g < 0) := not_lt.mpr hg.1
    rcases hsg : seen[g.toNat]? with _ | b
    · simp [List.getElem?_eq_none_iff] at hsg
      omega
    cases b with
    | true =>
      obtain ⟨child2, hrec⟩ := ih (read + 1) insert child (by omega)
      refine ⟨child2, ?_⟩
      rw [dcoPhase2]
      simp only [hgr, hsg]
      rw [if_neg hgneg]
      exact hrec
    | false =>
      obtain ⟨child2, hrec⟩ := ih (read + 1) ((insert + 1) % n) (child.set insert g) (by omega)
      refine ⟨child2, ?_⟩
      rw [dcoPhase2]
      simp only [hgr, hsg]
      rw [if_neg hgneg]
      exact hrec

theorem davisCrossoverOne_total (p1 p2 : List Gene) (lower upper : Nat)
    (hn : 1 ≤ p1.length) (hlen : p2.length = p1.length)
    (hlow : lower ≤ upper) (hup : upper ≤ p1.length)
    (hp1 : ∀ g ∈ p1, 0 ≤ g ∧ g.toNat < p1.length)
    (hp2 : ∀ g ∈ p2, 0 ≤ g ∧ g.toNat < p1.length) :
    (davisCrossoverOne p1 p2 lower upper).isSome := by
  unfold davisCrossoverOne
  have hn0 : ¬ (p1.length = 0) := by omega
  simp only [hn0, if_false]
  obtain ⟨seen2, child2, hph1, hlen2⟩ :=
    dcoPhase1_total p1 hp1 (upper - lower) lower
      (List.replicate p1.length false) (List.replicate p1.length 0)
      (by omega) (by simp)
  rw [hph1]
  obtain ⟨child3, hph2⟩ :=
    dcoPhase2_total p2 seen2 p1.length hp2 (by simpa using hlen2)
      p1.length 0 (upper % p1.length) child2 (by omega)
  simp [hph2]

/-- Claim C9 (confirmed): OX1 is memory-safe exactly on permutation-range
parents.  For parents whose gene values all lie in `[0, numGenes)` and any
legally dealt cut points, every slice access in
`DavisOrderCrossover.Crossover` — including the `seen` lookups indexed by
gene value — is in bounds (the `Option`-guarded run succeeds); and for the
parent `[5, 0]`, whose first gene value exceeds `numGenes = 2`, the run
faults on the `seen` lookup. -/
theorem C9_davis_safe_iff_permutation_range :
    (∀ (a b : List Gene) (d0 d1 : Nat),
      1 ≤ a.length → b.length = a.length → d0 ≤ a.length → d1 ≤ a.length →
      (∀ g ∈ a, 0 ≤ g ∧ g.toNat < a.length) →
      (∀ g ∈ b, 0 ≤ g ∧ g.toNat < a.length) →
      (davisCrossover d0 d1 a b).isSome) ∧
    davisCrossover 0 1 [5, 0] [0, 1] = none := by
  constructor
  · intro a b d0 d1 hn hblen hd0 hd1 ha hb
    unfold davisCrossover
    have hx := davisCrossoverOne_total a b (if d0 > d1 then d1 else d0)
      (if d0 > d1 then d0 else d1) hn hblen (by split <;> omega) (by split <;> omega) ha hb
    have hy := davisCrossoverOne_total b a (if d0 > d1 then d1 else d0)
      (if d0 > d1 then d0 else d1) (by omega) (by omega) (by split <;> omega)
      (by split <;> omega)
      (fun g hg => ⟨(hb g hg).1, by have h2 := (hb g hg).2; omega⟩)
      (fun g hg => ⟨(ha g hg).1, by have h2 := (ha g hg).2; omega⟩)
    rcases hxe : davisCrossoverOne a b (if d0 > d1 then d1 else d0)
        (if d0 > d1 then d0 else d1) with _ | x
    · rw [hxe] at hx
      simp at hx
    rcases hye : davisCrossoverOne b a (if d0 > d1 then d1 else d0)
        (if d0 > d1 then d0 else d1) with _ | y
    · rw [hye] at hy
      simp at hy
    simp only [hxe, hye]
    rfl
  · decide

/-- Witness for C9 on the permutation parents `[0, 1]` and `[1, 0]` with cut
points dealt as `0, 1`. -/
theorem C9_witness : (davisCrossover 0 1 [0, 1] [1, 0]).isSome :=
  C9_davis_safe_iff_permutation_range.1 [0, 1] [1, 0] 0 1 (by decide) (by decide)
    (by decide) (by decide) (by decide) (by decide)

/-! ### Worst-k selection: `kMinIndexes` over `container/heap`

The Go code seeds a `maxTieHeap` (Less compares `fitness` with `>`, so the
root carries the LARGEST held fitness) with the first `k` `(index, fitness)`
pairs, calls `heap.Init`, then for each later index `i` replaces the root by
`(i, f[i])` and calls `heap.Fix(h, 0)` whenever `f[i] < h[0].fitness`.

`container/heap` internals embedded here:
* `down h i n` (siftdown): repeatedly swap position `i` with its
  greater-fitness child while that child beats it.  `heap.Init` runs `down`
  at `n/2 - 1, …, 0`; `heap.Fix(h, 0)` is exactly `down h 0 n` because
  `up(h, 0)` is a no-op at the root.
* loops carry an explicit structural fuel (`n` suffices for `down`, whose
  cursor strictly descends the tree; the spec lemmas require only
  `n - i ≤ fuel`).
-/

/-- One `(index, fitness)` entry of the bounded heap (Go `type tie struct`). -/
structure Tie where
  index : Nat
  fitness : Fitness
deriving Repr, DecidableEq

/-- Default entry for out-of-range reads (never hit in verified runs). -/
def dTie : Tie := ⟨0, 0⟩

/-- Fitness stored at heap slot `m`. -/
def fitAt (hp : List Tie) (m : Nat) : Fitness :=
  (hp.getD m dTie).fitness

/-- The child of `i` preferred by the Go siftdown: `j1 = 2i+1`, replaced by
`j2 = 2i+2` when `j2 < n && h.Less(j2, j1)` (strictly greater fitness). -/
def bestChild (hp : List Tie) (i n : Nat) : Nat :=
  if 2*i+2 < n ∧ fitAt hp (2*i+1) < fitAt hp (2*i+2) then 2*i+2 else 2*i+1

/-- Go `container/heap`'s `down(h, i, n)` with structural fuel. The loop body
swaps `i` with its best child `j` while `h.Less(j, i)` holds. -/
def down (n : Nat) : Nat → List Tie → Nat → List Tie
  | 0, hp, _ => hp
  | fuel + 1, hp, i =>
    if 2*i+1 < n then
      let j := bestChild hp i n
      if fitAt hp i < fitAt hp j then down n fuel (listSwap hp i j) j else hp
    else hp

/-- Go `heap.Init`: `for i := n/2 - 1; i >= 0; i-- { down(h, i, n) }`;
`initAux hp n k` runs `down` at `k-1, …, 0`. -/
def initAux (n : Nat) : Nat → List Tie → List Tie
  | 0, hp => hp
  | k + 1, hp => initAux n k (down n n hp k)

/-- Go `heap.Init(h)`. -/
def heapInit (hp : List Tie) : List Tie :=
  initAux hp.length (hp.length / 2) hp

/-- One iteration of the `kMinIndexes` scan: on `f[i] < h[0].fitness` replace
the root by `(i, f[i])` and restore the heap with `heap.Fix(h, 0)`
(= siftdown from the root, since `up(h, 0)` does nothing). -/
def scanStep (f : List Fitness) (hp : List Tie) (i : Nat) : List Tie :=
  if f.getD i 0 < fitAt hp 0 then
    let h2 := hp.set 0 ⟨i, f.getD i 0⟩
    down h2.length h2.length h2 0
  else hp

/-- The `for i := k; i < len(f); i++` scan, with fuel `len(f) - k`. -/
def scanLoop (f : List Fitness) : Nat → List Tie → Nat → List Tie
  | 0, hp, _ => hp
  | fuel + 1, hp, i => scanLoop f fuel (scanStep f hp i) (i + 1)

/-- Go `kMinIndexes(f, k)`.  `none` models the panics: seeding reads `f[i]`
for `i < k` (out of range when `k > len(f)`), and the scan reads `h[0]` (out
of range when `k = 0` but the scan runs). -/
def kMinIndexes (f : List Fitness) (k : Nat) : Option (List Nat) :=
  if k ≤ f.length then
    if k = 0 ∧ 0 < f.length then none
    else
      let seed := (List.range k).map (fun i => Tie.mk i (f.getD i 0))
      some ((scanLoop f (f.length - k) (heapInit seed) k).map Tie.index)
  else none

/-- Position `m` lies in the binary-tree subtree rooted at `r`
(parent of `m` is `(m-1)/2`). -/
def inSub (r m : Nat) : Bool :=
  if m = r then true
  else if m ≤ r then false
  else inSub r ((m - 1) / 2)
termination_by m
decreasing_by omega

theorem inSub_self (r : Nat) : inSub r r = true := by
  rw [inSub]
  simp

theorem inSub_le {r m : Nat} (h : inSub r m = true) : r ≤ m := by
  by_contra hlt
  rw [inSub] at h
  have hne : m ≠ r := by omega
  have hle : m ≤ r := by omega
  simp [hne, hle] at h

theorem inSub_step {r m : Nat} (hne : m ≠ r) (h : inSub r m = true) :
    r < m ∧ inSub r ((m - 1) / 2) = true := by
  rw [inSub] at h
  by_cases hle : m ≤ r
  · simp [hne, hle] at h
  · simp [hne, hle] at h
    exact ⟨by omega, h⟩

theorem inSub_of_step {r m : Nat} (hgt : r < m) (h : inSub r ((m - 1) / 2) = true) :
    inSub r m = true := by
  rw [inSub]
  have hne : m ≠ r := by omega
  have hle : ¬ m ≤ r := by omega
  simp [hne, hle, h]

theorem inSub_child_left {r m : Nat} (h : inSub r m = true) : inSub r (2*m+1) = true := by
  have hm := inSub_le h
  refine inSub_of_step (by omega) ?_
  have : (2*m+1 - 1) / 2 = m := by omega
  rw [this]
  exact h

theorem inSub_child_right {r m : Nat} (h : inSub r m = true) : inSub r (2*m+2) = true := by
  have hm := inSub_le h
  refine inSub_of_step (by omega) ?_
  have : (2*m+2 - 1) / 2 = m := by omega
  rw [this]
  exact h

theorem inSub_trans {r s : Nat} (hrs : inSub r s = true) :
    ∀ m, inSub s m = true → inSub r m = true := by
  intro m
  induction m using Nat.strong_induction_on with
  | _ m ih =>
    intro hsm
    by_cases hms : m = s
    · subst hms; exact hrs
    · obtain ⟨hgt, hstep⟩ := inSub_step hms hsm
      have hp := ih ((m - 1) / 2) (by omega) hstep
      have hrm : r < m := by
        have h1 := inSub_le hrs
        omega
      exact inSub_of_step hrm hp

theorem inSub_zero (m : Nat) : inSub 0 m = true := by
  induction m using Nat.strong_induction_on with
  | _ m ih =>
    by_cases h0 : m = 0
    · subst h0; exact inSub_self 0
    · exact inSub_of_step (by omega) (ih _ (by omega))

/-- Entering the subtree of `j` from outside: if a child `c` of `p` lies in
the subtree of `j` but `p` does not and `c ≠ j`, contradiction. -/
theorem inSub_parent {j c : Nat} (hc : inSub j c = true) (hcj : c ≠ j) :
    inSub j ((c - 1) / 2) = true :=
  (inSub_step hcj hc).2

/-- Local max-heap property at node `m` (children do not beat the parent). -/
def localHeap (hp : List Tie) (n m : Nat) : Prop :=
  ∀ c, (c = 2*m+1 ∨ c = 2*m+2) → c < n → fitAt hp c ≤ fitAt hp m

/-- Maximum-at-root of any sub-heap: if the local property holds at every
node from `r` on, every subtree member is bounded by the subtree root. -/
theorem subtreeMax {hp : List Tie} {n r : Nat}
    (hheap : ∀ p, r ≤ p → p < n → localHeap hp n p) :
    ∀ m, m < n → inSub r m = true → fitAt hp m ≤ fitAt hp r := by
  intro m
  induction m using Nat.strong_induction_on with
  | _ m ih =>
    intro hmn hsub
    by_cases hmr : m = r
    · subst hmr; exact le_refl _
    · obtain ⟨hgt, hstep⟩ := inSub_step hmr hsub
      have hparent : (m - 1) / 2 < m := by omega
      have hpr : r ≤ (m - 1) / 2 := inSub_le hstep
      have hchild : m = 2*((m-1)/2)+1 ∨ m = 2*((m-1)/2)+2 := by omega
      have h1 : fitAt hp m ≤ fitAt hp ((m-1)/2) :=
        hheap ((m-1)/2) hpr (by omega) m hchild hmn
      have h2 : fitAt hp ((m-1)/2) ≤ fitAt hp r := ih _ hparent (by omega) hstep
      exact le_trans h1 h2

theorem fitAt_congr {hp1 hp2 : List Tie} {m : Nat} (h : hp1[m]? = hp2[m]?) :
    fitAt hp1 m = fitAt hp2 m := by
  unfold fitAt
  rw [List.getD_eq_getElem?_getD, List.getD_eq_getElem?_getD, h]

theorem fitAt_swap_ne (hp : List Tie) (i j m : Nat) (hmi : m ≠ i) (hmj : m ≠ j) :
    fitAt (listSwap hp i j) m = fitAt hp m :=
  fitAt_congr (listSwap_getElem?_ne hp i j m hmi hmj)

theorem fitAt_swap_left (hp : List Tie) (i j : Nat) (hi : i < hp.length)
    (hj : j < hp.length) (hij : i ≠ j) : fitAt (listSwap hp i j) i = fitAt hp j := by
  unfold fitAt
  rw [List.getD_eq_getElem?_getD, List.getD_eq_getElem?_getD,
    listSwap_getElem?_left hp i j hi hj hij]

theorem fitAt_swap_right (hp : List Tie) (i j : Nat) (hi : i < hp.length)
    (hj : j < hp.length) : fitAt (listSwap hp i j) j = fitAt hp i := by
  unfold fitAt
  rw [List.getD_eq_getElem?_getD, List.getD_eq_getElem?_getD,
    listSwap_getElem?_right hp i j hi hj]

theorem inSub_eq_false_of_lt {r m : Nat} (h : m < r) : inSub r m = false := by
  by_contra hcon
  have : inSub r m = true := by
    cases he : inSub r m
    · exact absurd he hcon
    · rfl
  have := inSub_le this
  omega

theorem bestChild_gt (hp : List Tie) (i n : Nat) : i < bestChild hp i n := by
  unfold bestChild
  split <;> omega

theorem bestChild_lt (hp : List Tie) (i n : Nat) (h : 2*i+1 < n) : bestChild hp i n < n := by
  unfold bestChild
  split <;> omega

theorem bestChild_cases (hp : List Tie) (i n : Nat) :
    bestChild hp i n = 2*i+1 ∨ bestChild hp i n = 2*i+2 := by
  unfold bestChild
  split <;> simp

theorem bestChild_ge_left (hp : List Tie) (i n : Nat) :
    fitAt hp (2*i+1) ≤ fitAt hp (bestChild hp i n) := by
  unfold bestChild
  split
  case isTrue h => exact le_of_lt h.2
  case isFalse h => exact le_refl _

theorem bestChild_ge_right (hp : List Tie) (i n : Nat) (h2 : 2*i+2 < n) :
    fitAt hp (2*i+2) ≤ fitAt hp (bestChild hp i n) := by
  unfold bestChild
  split
  case isTrue h => exact le_refl _
  case isFalse h =>
    rcases not_and_or.mp h with h | h
    · exact absurd h2 h
    · exact le_of_not_lt h

theorem inSub_bestChild (hp : List Tie) (i n : Nat) : inSub i (bestChild hp i n) = true := by
  rcases bestChild_cases hp i n with h | h <;> rw [h]
  · exact inSub_child_left (inSub_self i)
  · exact inSub_child_right (inSub_self i)

/-- Correctness of Go's siftdown `down(h, i, n)`: given the local heap
property everywhere strictly below the walk root `i`, the result is a
permutation, touches only the subtree of `i`, restores the local property on
all of `[i, n)`, and the new root value is some old subtree value. -/
theorem down_spec (n : Nat) :
    ∀ (fuel i : Nat) (hp : List Tie), hp.length = n → i < n → n - i ≤ fuel →
      (∀ p, i < p → p < n → localHeap hp n p) →
      (down n fuel hp i).Perm hp ∧
      (∀ m, inSub i m = false → (down n fuel hp i)[m]? = hp[m]?) ∧
      (∀ p, i ≤ p → p < n → localHeap (down n fuel hp i) n p) ∧
      (∃ m, inSub i m = true ∧ m < n ∧ fitAt (down n fuel hp i) i = fitAt hp m) := by
  intro fuel
  induction fuel with
  | zero =>
    intro i hp hlen hin hfuel hpre
    omega
  | succ fuel ih =>
    intro i hp hlen hin hfuel hpre
    by_cases hj1 : 2*i+1 < n
    · set j := bestChild hp i n with hjdef
      have hji : i < j := bestChild_gt hp i n
      have hjn : j < n := bestChild_lt hp i n hj1
      have hsubij : inSub i j = true := inSub_bestChild hp i n
      have hparentj : (j - 1) / 2 = i := by
        rcases bestChild_cases hp i n with h | h <;> rw [← hjdef] at h <;> omega
      by_cases hswap : fitAt hp i < fitAt hp j
      · have hstep : down n (fuel+1) hp i = down n fuel (listSwap hp i j) j := by
          show down n (fuel+1) hp i = _
          rw [down]
          simp only [hj1, if_true]
          rw [← hjdef, if_pos hswap]
        have hlen2 : (listSwap hp i j).length = n := by
          rw [listSwap_length]; exact hlen
        have hpre2 : ∀ p, j < p → p < n → localHeap (listSwap hp i j) n p := by
          intro p hjp hpn c hc hcn
          have hcp : p < c := by rcases hc with hc | hc <;> omega
          have h1 : fitAt (listSwap hp i j) c = fitAt hp c :=
            fitAt_swap_ne hp i j c (by omega) (by omega)
          have h2 : fitAt (listSwap hp i j) p = fitAt hp p :=
            fitAt_swap_ne hp i j p (by omega) (by omega)
          rw [h1, h2]
          exact hpre p (by omega) hpn c hc hcn
        obtain ⟨P1, P2, P3, P4⟩ := ih j (listSwap hp i j) hlen2 hjn (by omega) hpre2
        -- subtree of j is disjoint from position i and from positions < j
        have hinotsub : inSub j i = false := inSub_eq_false_of_lt hji
        have hrooti : fitAt (down n fuel (listSwap hp i j) j) i = fitAt hp j := by
          have h1 := fitAt_congr (P2 i hinotsub)
          rw [h1]
          exact fitAt_swap_left hp i j (by omega) (by omega) (by omega)
        -- the maximum over hp's subtree at j
        have hsubmax : ∀ m, m < n → inSub j m = true → fitAt hp m ≤ fitAt hp j := by
          refine subtreeMax (fun p hjp hpn => hpre p (by omega) hpn)
        rw [hstep]
        refine ⟨P1.trans (listSwap_perm hp i j), ?_, ?_, ⟨j, hsubij, hjn, hrooti⟩⟩
        · intro m hm
          have hmi : m ≠ i := by
            intro he
            rw [he, inSub_self] at hm
            exact Bool.noConfusion hm
          have hmj : m ≠ j := by
            intro he
            rw [he, hsubij] at hm
            exact Bool.noConfusion hm
          have hmjsub : inSub j m = false := by
            cases he : inSub j m
            · rfl
            · exact absurd (inSub_trans hsubij m he) (by rw [hm]; simp)
          rw [P2 m hmjsub]
          exact listSwap_getElem?_ne hp i j m hmi hmj
        · intro p hip hpn
          rcases Nat.lt_or_ge p j with hpj | hpj
          · rcases Nat.eq_or_lt_of_le hip with hpi | hpi
            · -- p = i: the walk root
              subst hpi
              intro c hc hcn
              rw [hrooti]
              by_cases hcj : c = j
              · subst hcj
                obtain ⟨m2, hm2sub, hm2n, hm2val⟩ := P4
                rw [hm2val]
                by_cases hm2j : m2 = j
                · subst hm2j
                  rw [fitAt_swap_right hp i j (by omega) (by omega)]
                  exact le_of_lt hswap
                · have hm2gt : j < m2 := by
                    have := inSub_le hm2sub
                    omega
                  rw [fitAt_swap_ne hp i j m2 (by omega) (by omega)]
                  exact hsubmax m2 hm2n hm2sub
              · -- sibling child of i, untouched
                have hcsub : inSub j c = false := by
                  cases he : inSub j c
                  · rfl
                  · exfalso
                    have hparc : (c - 1) / 2 = i := by rcases hc with hc | hc <;> omega
                    have := inSub_parent he hcj
                    rw [hparc] at this
                    have := inSub_le this
                    omega
                have h1 := fitAt_congr (P2 c hcsub)
                rw [h1, fitAt_swap_ne hp i j c (by omega) (by omega)]
                rcases hc with hc | hc
                · rw [hc]
                  rw [hjdef]
                  exact bestChild_ge_left hp i n
                · rw [hc]
                  rw [hjdef]
                  exact bestChild_ge_right hp i n (by omega)
            · -- i < p < j: untouched positions
              intro c hc hcn
              have hcgt : p < c := by rcases hc with hc | hc <;> omega
              have hcj : c ≠ j := by
                intro he
                have : (c - 1) / 2 = p := by rcases hc with hc | hc <;> omega
                rw [he, hparentj] at this
                omega
              have hcsub : inSub j c = false := by
                cases he : inSub j c
                · rfl
                · exfalso
                  have hparc : (c - 1) / 2 = p := by rcases hc with hc | hc <;> omega
                  have := inSub_parent he hcj
                  rw [hparc] at this
                  have := inSub_le this
                  omega
              have hpsub : inSub j p = false := inSub_eq_false_of_lt hpj
              have h1 := fitAt_congr (P2 c hcsub)
              have h2 := fitAt_congr (P2 p hpsub)
              rw [h1, h2, fitAt_swap_ne hp i j c (by omega) (by omega),
                fitAt_swap_ne hp i j p (by omega) (by omega)]
              exact hpre p (by omega) hpn c hc hcn
          · exact P3 p hpj hpn
      · -- no swap: node i already dominates its children
        have hdown : down n (fuel+1) hp i = hp := by
          show down n (fuel+1) hp i = _
          rw [down]
          simp only [hj1, if_true]
          rw [← hjdef, if_neg hswap]
        rw [hdown]
        refine ⟨List.Perm.refl hp, fun m _ => rfl, ?_, ⟨i, inSub_self i, hin, rfl⟩⟩
        intro p hip hpn
        rcases Nat.eq_or_lt_of_le hip with hpi | hpi
        · subst hpi
          intro c hc hcn
          have hle : fitAt hp c ≤ fitAt hp j := by
            rcases hc with hc | hc
            · rw [hc, hjdef]
              exact bestChild_ge_left hp i n
            · rw [hc, hjdef]
              exact bestChild_ge_right hp i n (by omega)
          exact le_trans hle (le_of_not_lt hswap)
        · exact hpre p hpi hpn
    · -- 2i+1 ≥ n: i is a leaf, nothing to do
      have hdown : down n (fuel+1) hp i = hp := by
        show down n (fuel+1) hp i = _
        rw [down]
        rw [if_neg hj1]
      rw [hdown]
      refine ⟨List.Perm.refl hp, fun m _ => rfl, ?_, ⟨i, inSub_self i, hin, rfl⟩⟩
      intro p hip hpn
      rcases Nat.eq_or_lt_of_le hip with hpi | hpi
      · subst hpi
        intro c hc hcn
        rcases hc with hc | hc <;> omega
      · exact hpre p hpi hpn

/-- Floyd heapify: running `down` at `k-1, …, 0` turns the local property on
`[k, n)` into the local property everywhere. -/
theorem initAux_spec (n : Nat) :
    ∀ (k : Nat) (hp : List Tie), hp.length = n → 2*k ≤ n →
      (∀ p, k ≤ p → p < n → localHeap hp n p) →
      (initAux n k hp).Perm hp ∧ ∀ p, p < n → localHeap (initAux n k hp) n p := by
  intro k
  induction k with
  | zero =>
    intro hp hlen hkn hpre
    exact ⟨List.Perm.refl hp, fun p hpn => hpre p (Nat.zero_le p) hpn⟩
  | succ k ih =>
    intro hp hlen hkn hpre
    obtain ⟨Q1, _, Q3, _⟩ :=
      down_spec n n k hp hlen (by omega) (by omega)
        (fun p hkp hpn => hpre p (by omega) hpn)
    obtain ⟨R1, R2⟩ :=
      ih (down n n hp k) (Q1.length_eq.trans hlen) (by omega)
        (fun p hkp hpn => Q3 p hkp hpn)
    exact ⟨R1.trans Q1, R2⟩

/-- Go `heap.Init` establishes the max-heap property. -/
theorem heapInit_spec (hp : List Tie) :
    (heapInit hp).Perm hp ∧ ∀ p, p < hp.length → localHeap (heapInit hp) hp.length p := by
  refine initAux_spec hp.length (hp.length / 2) hp rfl (by omega) ?_
  intro p hp2 hpn c hc hcn
  exfalso
  rcases hc with hc | hc <;> omega

/-- In a max-heap the root fitness bounds every slot. -/
theorem rootMax {hp : List Tie} {n : Nat} (hheap : ∀ p, p < n → localHeap hp n p) :
    ∀ m, m < n → fitAt hp m ≤ fitAt hp 0 :=
  fun m hm => subtreeMax (fun p _ hpn => hheap p hpn) m hm (inSub_zero m)

theorem fitAt_of_mem {hp : List Tie} {e : Tie} (he : e ∈ hp) :
    ∃ m, m < hp.length ∧ fitAt hp m = e.fitness := by
  obtain ⟨m, hm, hget⟩ := List.mem_iff_getElem.mp he
  refine ⟨m, hm, ?_⟩
  unfold fitAt
  rw [List.getD_eq_getElem?_getD, List.getElem?_eq_getElem hm, hget]
  rfl

theorem fitAt_cons_zero (x : Tie) (t : List Tie) : fitAt (x :: t) 0 = x.fitness := by
  simp [fitAt]

theorem fitAt_cons_pos (x y : Tie) (t : List Tie) (m : Nat) (hm : 0 < m) :
    fitAt (x :: t) m = fitAt (y :: t) m := by
  cases m with
  | zero => omega
  | succ m2 => simp [fitAt, List.getD_cons_succ]

/-- Invariant of the `kMinIndexes` scan after processing indices `[0, i)`:
the heap holds `k` faithful `(index, fitness)` entries with distinct indices
below `i`, it is a max-heap, and every already-seen index outside the heap
has fitness at least the heap root (the current k-th smallest). -/
structure ScanInv (f : List Fitness) (k i : Nat) (hp : List Tie) : Prop where
  len : hp.length = k
  heap : ∀ p, p < k → localHeap hp k p
  faithful : ∀ e ∈ hp, e.fitness = f.getD e.index 0 ∧ e.index < i
  nodup : (hp.map Tie.index).Nodup
  covered : ∀ j, j < i → (∀ e ∈ hp, e.index ≠ j) → fitAt hp 0 ≤ f.getD j 0

theorem scanStep_inv (f : List Fitness) (k i : Nat) (hk : 0 < k)
    (hp : List Tie) (inv : ScanInv f k i hp) : ScanInv f k (i + 1) (scanStep f hp i) := by
  obtain ⟨hlen, hheap, hfaith, hnodup, hcov⟩ := inv
  by_cases hc : f.getD i 0 < fitAt hp 0
  case neg =>
    have hscan : scanStep f hp i = hp := by
      unfold scanStep
      rw [if_neg hc]
    rw [hscan]
    refine ⟨hlen, hheap, ?_, hnodup, ?_⟩
    · intro e he
      have := hfaith e he
      exact ⟨this.1, by omega⟩
    · intro j hj hex
      rcases Nat.lt_or_ge j i with h | h
      · exact hcov j h hex
      · have hji : j = i := by omega
        subst hji
        exact le_of_not_lt hc
  case pos =>
    cases hp with
    | nil =>
      exfalso
      simp at hlen
      omega
    | cons e0 t =>
      have hlent : t.length + 1 = k := by simpa using hlen
      have hscan : scanStep f (e0 :: t) i =
          down k k (Tie.mk i (f.getD i 0) :: t) 0 := by
        unfold scanStep
        rw [if_pos hc, List.set_cons_zero]
        have hlk : (Tie.mk i (f.getD i 0) :: t).length = k := by simpa using hlent
        simp only [hlk]
      have hlk : (Tie.mk i (f.getD i 0) :: t).length = k := by simpa using hlent
      have hpre : ∀ p, 0 < p → p < k → localHeap (Tie.mk i (f.getD i 0) :: t) k p := by
        intro p h0p hpk c hcc hck
        have hc0 : 0 < c := by rcases hcc with h | h <;> omega
        rw [fitAt_cons_pos _ e0 t c hc0, fitAt_cons_pos _ e0 t p h0p]
        exact hheap p hpk c hcc hck
      obtain ⟨Q1, Q2, Q3, Q4⟩ :=
        down_spec k k 0 (Tie.mk i (f.getD i 0) :: t) hlk hk (by omega) hpre
      rw [hscan]
      have hmemiff : ∀ e : Tie,
          e ∈ down k k (Tie.mk i (f.getD i 0) :: t) 0 ↔
            e ∈ Tie.mk i (f.getD i 0) :: t := fun e => Q1.mem_iff
      have hrootle : fitAt (down k k (Tie.mk i (f.getD i 0) :: t) 0) 0 ≤
          fitAt (e0 :: t) 0 := by
        obtain ⟨m, hmsub, hmk, hmval⟩ := Q4
        rw [hmval]
        rcases Nat.eq_zero_or_pos m with hm0 | hm0
        · subst hm0
          rw [fitAt_cons_zero]
          exact le_of_lt hc
        · rw [fitAt_cons_pos _ e0 t m hm0]
          exact rootMax hheap m hmk
      refine ⟨Q1.length_eq.trans hlk, fun p hpk => Q3 p (Nat.zero_le p) hpk, ?_, ?_, ?_⟩
      · intro e he
        rcases List.mem_cons.mp ((hmemiff e).mp he) with he2 | he2
        · rw [he2]
          exact ⟨rfl, Nat.lt_succ_self i⟩
        · have := hfaith e (List.mem_cons_of_mem e0 he2)
          exact ⟨this.1, by omega⟩
      · have hpermmap := Q1.map Tie.index
        rw [(hpermmap.nodup_iff)]
        simp only [List.map_cons]
        refine List.Nodup.cons ?_ ?_
        · intro hmem
          obtain ⟨e2, he2, hei⟩ := List.mem_map.mp hmem
          have := (hfaith e2 (List.mem_cons_of_mem e0 he2)).2
          omega
        · have : (e0.index :: t.map Tie.index).Nodup := by simpa using hnodup
          exact this.of_cons
      · intro j hj hex
        by_cases hji : j = i
        · subst hji
          exfalso
          have hmem : Tie.mk j (f.getD j 0) ∈ down k k (Tie.mk j (f.getD j 0) :: t) 0 :=
            (hmemiff _).mpr (List.mem_cons_self _ t)
          exact hex _ hmem rfl
        · have hjlt : j < i := by omega
          by_cases hexhp : ∀ e2 ∈ e0 :: t, e2.index ≠ j
          · exact le_trans hrootle (hcov j hjlt hexhp)
          · push_neg at hexhp
            obtain ⟨e2, he2, hej⟩ := hexhp
            rcases List.mem_cons.mp he2 with he0 | ht
            · have hf := (hfaith e2 he2).1
              rw [hej] at hf
              rw [he0] at hf
              calc fitAt (down k k (Tie.mk i (f.getD i 0) :: t) 0) 0
                  ≤ fitAt (e0 :: t) 0 := hrootle
                _ = e0.fitness := fitAt_cons_zero e0 t
                _ = f.getD j 0 := hf
            · exfalso
              have hmem : e2 ∈ down k k (Tie.mk i (f.getD i 0) :: t) 0 :=
                (hmemiff e2).mpr (List.mem_cons_of_mem _ ht)
              exact hex e2 hmem hej

theorem scanLoop_inv (f : List Fitness) (k : Nat) (hk : 0 < k) :
    ∀ (fuel i : Nat) (hp : List Tie), k ≤ i → ScanInv f k i hp →
      ScanInv f k (i + fuel) (scanLoop f fuel hp i) := by
  intro fuel
  induction fuel with
  | zero =>
    intro i hp hki hinv
    simpa using hinv
  | succ fuel ih =>
    intro i hp hki hinv
    have hstep := scanStep_inv f k i hk hp hinv
    have := ih (i + 1) (scanStep f hp i) (by omega) hstep
    have harith : i + 1 + fuel = i + (fuel + 1) := by omega
    rw [harith] at this
    exact this

theorem seed_inv (f : List Fitness) (k : Nat) (hk : 0 < k) (hkf : k ≤ f.length) :
    ScanInv f k k (heapInit ((List.range k).map (fun i => Tie.mk i (f.getD i 0)))) := by
  set seed := (List.range k).map (fun i => Tie.mk i (f.getD i 0)) with hseed
  have hslen : seed.length = k := by simp [hseed]
  obtain ⟨H1, H2⟩ := heapInit_spec seed
  have hmemiff : ∀ e : Tie, e ∈ heapInit seed ↔ e ∈ seed := fun e => H1.mem_iff
  refine ⟨H1.length_eq.trans hslen, ?_, ?_, ?_, ?_⟩
  · intro p hpk
    have := H2 p (by omega)
    rw [hslen] at this
    exact this
  · intro e he
    obtain ⟨m, hm, hme⟩ := List.mem_map.mp ((hmemiff e).mp he)
    have hmk : m < k := List.mem_range.mp hm
    rw [← hme]
    exact ⟨rfl, hmk⟩
  · have hpermmap := H1.map Tie.index
    rw [hpermmap.nodup_iff]
    have : seed.map Tie.index = List.range k := by
      rw [hseed, List.map_map]
      have hcomp : (Tie.index ∘ fun i => Tie.mk i (f.getD i 0)) = id := rfl
      rw [hcomp, List.map_id]
    rw [this]
    exact List.nodup_range k
  · intro j hj hex
    exfalso
    have hmem : Tie.mk j (f.getD j 0) ∈ seed := by
      rw [hseed]
      exact List.mem_map.mpr ⟨j, List.mem_range.mpr hj, rfl⟩
    exact hex _ ((hmemiff _).mpr hmem) rfl

/-- Claim C1 (confirmed): worst-k selection is correct.  For `0 < k ≤ n`,
`kMinIndexes(f, k)` returns exactly `k` distinct indices into `f` whose
fitness values are all `≤` the fitness at every index not returned; and the
scan comparison is strict (`f[i] < h[0].fitness`), so an element whose
fitness EQUALS the current heap top leaves the heap unchanged — ties beyond
the threshold resolve to the first-seen index. -/
theorem C1_kMinIndexes_bottom_k (f : List Fitness) (k : Nat)
    (hk : 0 < k) (hkf : k ≤ f.length) :
    (∃ res, kMinIndexes f k = some res ∧ res.length = k ∧ res.Nodup ∧
      (∀ idx ∈ res, idx < f.length) ∧
      (∀ idx ∈ res, ∀ j, j < f.length → j ∉ res → f.getD idx 0 ≤ f.getD j 0)) ∧
    (∀ (hp : List Tie) (i : Nat), f.getD i 0 = fitAt hp 0 → scanStep f hp i = hp) := by
  constructor
  · have hinv :=
      scanLoop_inv f k hk (f.length - k) k
        (heapInit ((List.range k).map (fun i => Tie.mk i (f.getD i 0)))) le_rfl
        (seed_inv f k hk hkf)
    have harith : k + (f.length - k) = f.length := by omega
    rw [harith] at hinv
    refine ⟨(scanLoop f (f.length - k)
        (heapInit ((List.range k).map (fun i => Tie.mk i (f.getD i 0)))) k).map Tie.index,
      ?_, ?_, hinv.nodup, ?_, ?_⟩
    · unfold kMinIndexes
      rw [if_pos hkf, if_neg (fun hcon => by omega)]
    · rw [List.length_map, hinv.len]
    · intro idx hidx
      obtain ⟨e, he, hei⟩ := List.mem_map.mp hidx
      have := (hinv.faithful e he).2
      omega
    · intro idx hidx j hjn hjnot
      obtain ⟨e, he, hei⟩ := List.mem_map.mp hidx
      have hef := (hinv.faithful e he).1
      have hex : ∀ e2 ∈ scanLoop f (f.length - k)
          (heapInit ((List.range k).map (fun i => Tie.mk i (f.getD i 0)))) k,
          e2.index ≠ j := by
        intro e2 he2 hcon
        exact hjnot (List.mem_map.mpr ⟨e2, he2, hcon⟩)
      have hcov := hinv.covered j hjn hex
      obtain ⟨m, hm, hmval⟩ := fitAt_of_mem he
      have hmk : m < k := by
        rw [hinv.len] at hm
        exact hm
      have hroot : fitAt _ m ≤ fitAt _ 0 := rootMax hinv.heap m hmk
      rw [hmval] at hroot
      rw [← hei, ← hef]
      exact le_trans hroot hcov
  · intro hp i heq
    unfold scanStep
    rw [if_neg (by rw [heq]; exact lt_irrefl _)]

/-- Witness for C1 at `f = [3, 1, 2]`, `k = 2`. -/
theorem C1_witness :
    (∃ res, kMinIndexes [3, 1, 2] 2 = some res ∧ res.length = 2 ∧ res.Nodup ∧
      (∀ idx ∈ res, idx < ([3, 1, 2] : List Fitness).length) ∧
      (∀ idx ∈ res, ∀ j, j < ([3, 1, 2] : List Fitness).length → j ∉ res →
        ([3, 1, 2] : List Fitness).getD idx 0 ≤ ([3, 1, 2] : List Fitness).getD j 0)) ∧
    (∀ (hp : List Tie) (i : Nat),
      ([3, 1, 2] : List Fitness).getD i 0 = fitAt hp 0 → scanStep [3, 1, 2] hp i = hp) :=
  C1_kMinIndexes_bottom_k [3, 1, 2] 2 (by decide) (by decide)

/-! ### Evolver (natural_selection.go)

`Evolve(rand, pop, scores)`:
1. `indexes := e.Selector.SelectParents(rand, e.ReplacementCount, scores)`
2. `rand.Shuffle(len(indexes), …)` — the shuffled result is the oracle
   function `shuffle` applied to the selector output;
3. pair consecutive indexes, `Crossover` each pair into two children and
   `Mutate` each child when its `rand.Float32() < e.MutationRate` draw fires
   (oracle `mutateP`);
4. `minIndexes := kMinIndexes(scores, e.ReplacementCount)` and
   `pop[minIndexes[child]] = children[child]` for each child.

The strategies (`Selector`, `Crossover`, `Mutator`) are interface values in
Go; they and every random draw are oracle parameters here, so the frame
theorem holds for all of them.  `Evolve` never writes to `scores`; the
embedding returns the pair `(pop, scores)` to state that explicitly.
Chromosomes are opaque to `Evolve` (it only moves them), hence the type
parameter `α`. -/

/-- Child-building loop `for i := 0; i < k; i += 2`, with fuel.  Reading
`indexes[i]`, `indexes[i+1]` or `pop[…]` out of range panics (`none`), and an
odd `k` panics writing `children[k]` (the `i + 1 < k` guard). -/
def mkChildren (cross : α → α → α × α) (mutateP : Nat → Bool) (mutate : α → α)
    (indexes : List Nat) (pop : List α) (k : Nat) : Nat → Nat → Option (List α)
  | 0, i => if k ≤ i then some [] else none
  | fuel + 1, i =>
    if i < k then
      if i + 1 < k then do
        let i1 ← indexes[i]?
        let i2 ← indexes[i+1]?
        let p1 ← pop[i1]?
        let p2 ← pop[i2]?
        let c1 := if mutateP i then mutate (cross p1 p2).1 else (cross p1 p2).1
        let c2 := if mutateP (i+1) then mutate (cross p1 p2).2 else (cross p1 p2).2
        let rest ← mkChildren cross mutateP mutate indexes pop k fuel (i + 2)
        pure (c1 :: c2 :: rest)
      else none
    else some []

/-- Replacement loop `for child, parent := range minIndexes {
pop[parent] = children[child] }`. -/
def writeBack (pop : List α) : List Nat → List α → Option (List α)
  | [], _ => some pop
  | _ :: _, [] => none
  | p :: ps, c :: cs =>
    if p < pop.length then writeBack (pop.set p c) ps cs else none

/-- `Evolver.Evolve`, with every strategy and random draw as an oracle. -/
def evolve (selector : Nat → List Fitness → Option (List Nat))
    (shuffle : List Nat → List Nat) (cross : α → α → α × α)
    (mutateP : Nat → Bool) (mutate : α → α) (k : Nat)
    (pop : List α) (scores : List Fitness) : Option (List α × List Fitness) :=
  Option.bind (selector k scores) fun idx0 =>
    Option.bind (mkChildren cross mutateP mutate (shuffle idx0) pop k k 0) fun children =>
      Option.bind (kMinIndexes scores k) fun minIdx =>
        Option.bind (writeBack pop minIdx children) fun pop2 =>
          some (pop2, scores)

theorem writeBack_spec :
    ∀ (ps : List Nat) (cs : List α) (pop pop2 : List α),
      writeBack pop ps cs = some pop2 →
      pop2.length = pop.length ∧ ∀ j, j ∉ ps → pop2[j]? = pop[j]? := by
  intro ps
  induction ps with
  | nil =>
    intro cs pop pop2 h
    simp [writeBack] at h
    subst h
    exact ⟨rfl, fun j _ => rfl⟩
  | cons p ps ih =>
    intro cs pop pop2 h
    cases cs with
    | nil => simp [writeBack] at h
    | cons c cs =>
      rw [writeBack] at h
      by_cases hp : p < pop.length
      · rw [if_pos hp] at h
        obtain ⟨hlen, hframe⟩ := ih cs (pop.set p c) pop2 h
        refine ⟨by simpa using hlen, fun j hj => ?_⟩
        have hjp : j ≠ p := fun he => hj (he ▸ List.mem_cons_self p ps)
        have hjps : j ∉ ps := fun he => hj (List.mem_cons_of_mem p he)
        rw [hframe j hjps, List.getElem?_set_ne (fun he => hjp he.symm)]
      · rw [if_neg hp] at h
        cases h

theorem down_length (n : Nat) :
    ∀ (fuel i : Nat) (hp : List Tie), (down n fuel hp i).length = hp.length := by
  intro fuel
  induction fuel with
  | zero => intro i hp; rfl
  | succ fuel ih =>
    intro i hp
    rw [down]
    by_cases hj1 : 2*i+1 < n
    · rw [if_pos hj1]
      by_cases hs : fitAt hp i < fitAt hp (bestChild hp i n)
      · simp only [hs, if_true]
        rw [ih]
        exact listSwap_length hp i (bestChild hp i n)
      · simp only [hs, if_false]
    · rw [if_neg hj1]

theorem initAux_length (n : Nat) :
    ∀ (k : Nat) (hp : List Tie), (initAux n k hp).length = hp.length := by
  intro k
  induction k with
  | zero => intro hp; rfl
  | succ k ih =>
    intro hp
    rw [initAux, ih, down_length]

theorem heapInit_length (hp : List Tie) : (heapInit hp).length = hp.length := by
  unfold heapInit
  rw [initAux_length]

theorem scanLoop_length (f : List Fitness) :
    ∀ (fuel i : Nat) (hp : List Tie), (scanLoop f fuel hp i).length = hp.length := by
  intro fuel
  induction fuel with
  | zero => intro i hp; rfl
  | succ fuel ih =>
    intro i hp
    rw [scanLoop, ih]
    unfold scanStep
    by_cases hc : f.getD i 0 < fitAt hp 0
    · simp only [hc, if_true]
      rw [down_length]
      simp
    · simp only [hc, if_false]

theorem kMinIndexes_length {f : List Fitness} {k : Nat} {res : List Nat}
    (h : kMinIndexes f k = some res) : res.length = k := by
  unfold kMinIndexes at h
  by_cases hkf : k ≤ f.length
  · rw [if_pos hkf] at h
    by_cases hg : k = 0 ∧ 0 < f.length
    · rw [if_pos hg] at h
      cases h
    · rw [if_neg hg] at h
      have := Option.some.inj h
      rw [← this, List.length_map, scanLoop_length, heapInit_length]
      simp
  · rw [if_neg hkf] at h
    cases h

/-- Claim C3 (confirmed): `Evolver.Evolve` is a pure frame over the worst-k
slots.  Whenever a run completes, the scores vector is untouched, the
population length is unchanged, and every slot whose index is not among the
`replacementCount` indexes returned by `kMinIndexes(scores, replacementCount)`
still holds its original chromosome — for arbitrary selector, shuffle,
crossover and mutation oracles. -/
theorem C3_evolve_frame (selector : Nat → List Fitness → Option (List Nat))
    (shuffle : List Nat → List Nat) (cross : α → α → α × α)
    (mutateP : Nat → Bool) (mutate : α → α) (k : Nat)
    (pop : List α) (scores : List Fitness) (pop2 : List α) (scores2 : List Fitness)
    (h : evolve selector shuffle cross mutateP mutate k pop scores = some (pop2, scores2)) :
    scores2 = scores ∧ pop2.length = pop.length ∧
    ∃ minIdx, kMinIndexes scores k = some minIdx ∧ minIdx.length = k ∧
      ∀ j, j ∉ minIdx → pop2[j]? = pop[j]? := by
  unfold evolve at h
  simp only [Option.bind_eq_some] at h
  obtain ⟨idx0, hsel, children, hch, minIdx, hmin, pop3, hwb, heq⟩ := h
  have heq2 := Option.some.inj heq
  have hpop : pop3 = pop2 := congrArg Prod.fst heq2
  have hscores : scores = scores2 := congrArg Prod.snd heq2
  subst hpop
  obtain ⟨hlen, hframe⟩ := writeBack_spec minIdx children pop pop3 hwb
  exact ⟨hscores.symm, hlen, minIdx, hmin, kMinIndexes_length hmin, hframe⟩

/-- Witness for C3: two-slot replacement on `pop = [10, 20, 30]` with scores
`[5, 1, 3]` (worst two: indexes 2 and 1), identity-like oracles. -/
theorem C3_witness :
    (evolve (fun _ _ => some [0, 1]) id (fun a b => (a, b)) (fun _ => false) id 2
        [10, 20, 30] [5, 1, 3] = some ([10, 20, 10], [5, 1, 3])) ∧
    (([5, 1, 3] : List Fitness) = [5, 1, 3] ∧
      ([10, 20, 10] : List Int).length = ([10, 20, 30] : List Int).length ∧
      ∃ minIdx, kMinIndexes [5, 1, 3] 2 = some minIdx ∧ minIdx.length = 2 ∧
        ∀ j, j ∉ minIdx → ([10, 20, 10] : List Int)[j]? = ([10, 20, 30] : List Int)[j]?) :=
  ⟨by decide,
    C3_evolve_frame (fun _ _ => some [0, 1]) id (fun a b => (a, b)) (fun _ => false) id 2
      [10, 20, 30] [5, 1, 3] [10, 20, 10] [5, 1, 3] (by decide)⟩

end Genetics
